import Mathlib

/-!
Shallow embedding of the TENT v4.0 visual codec (src/visual_codec.rs).

Bytes are modelled as `Nat` values; the Rust `u8` / `u32` / `u64` wrapping
operations are made explicit with `% 2 ^ 8`, `% 2 ^ 32`, `% 2 ^ 64` where the
source can overflow.  Pixel buffers are `List Nat`.  Fallible operations
return `Except String`, carrying the exact error strings of the source.
-/

deriving instance DecidableEq for Except

namespace TentCodec

/-- Magic bytes for TENT payload: the constant `TENT_MAGIC` (visual_codec.rs line 20). -/
def TENT_MAGIC : List Nat := [0x54, 0x45, 0x4E, 0x54]

/-- Reed-Solomon parity byte count: the constant `RS_PARITY` (line 23). -/
def RS_PARITY : Nat := 16

/-- Bits per channel for LSB extraction: the constant `BITS_PER_CHANNEL` (line 26). -/
def BITS_PER_CHANNEL : Nat := 2

/-- The prime-walk generator state (struct `PrimeWalk`, lines 34-38). -/
structure PrimeWalk where
  primes : List Nat
  index : Nat
  state : Nat
  deriving DecidableEq

/-- The table of the first 20 primes built by `PrimeWalk::new` (lines 43-45). -/
def primeTable : List Nat :=
  [2, 3, 5, 7, 11, 13, 17, 19, 23, 29, 31, 37, 41, 43, 47, 53, 59, 61, 67, 71]

/-- `PrimeWalk::new` (lines 41-51). -/
def PrimeWalk.new (seed : Nat) : PrimeWalk :=
  { primes := primeTable, index := 0, state := seed }

/-- `PrimeWalk::next` (lines 54-59).  The source computes
`state = wrapping_mul(state, prime).wrapping_add(prime) % (max as u64)` in
`u64`, which panics when `max = 0`; the embedding guards that case with
`none`. -/
def PrimeWalk.next (w : PrimeWalk) (max : Nat) : Option (Nat × PrimeWalk) :=
  if max = 0 then
    none
  else
    let prime := w.primes.getD (w.index % w.primes.length) 0
    let state := (w.state * prime + prime) % 2 ^ 64 % max
    some (state, { w with state := state, index := w.index + 1 })

/-- `PrimeWalk::reset` (lines 62-65). -/
def PrimeWalk.reset (w : PrimeWalk) (seed : Nat) : PrimeWalk :=
  { w with state := seed, index := 0 }

/-- Iterate `next` a fixed number of times, collecting the returned indices
(used to state reproducibility of the walk). -/
def runWalk (w : PrimeWalk) (bound : Nat) : Nat → List Nat
  | 0 => []
  | n + 1 =>
    match w.next bound with
    | none => []
    | some (r, w2) => r :: runWalk w2 bound n

/-- Struct `ReedSolomon` (lines 74-76). -/
structure ReedSolomon where
  parity_bytes : Nat
  deriving DecidableEq

/-- `ReedSolomon::new` (lines 79-83). -/
def ReedSolomon.new (parity : Nat) : ReedSolomon :=
  { parity_bytes := parity }

/-- `u8::rotate_left(b, r)` for `0 <= r < 8`: the final `&&& 255` performs the
`u8` truncation of the shifted value. -/
def rotl8 (b r : Nat) : Nat := ((b <<< r) ||| (b >>> (8 - r))) &&& 255

/-- The inner parity loop of `ReedSolomon::encode` (lines 90-96): for parity
position `i`, XOR together every data byte `b_j` rotated left by
`(i + j) % 8` bits. -/
def rs_parity_byte (data : List Nat) (i : Nat) : Nat :=
  data.enum.foldl (fun parity jb => parity ^^^ rotl8 jb.2 ((i + jb.1) % 8)) 0

/-- `ReedSolomon::encode` (lines 86-99): the data followed by
`parity_bytes` parity bytes. -/
def ReedSolomon.encode (rs : ReedSolomon) (data : List Nat) : List Nat :=
  data ++ (List.range rs.parity_bytes).map (rs_parity_byte data)

/-- `ReedSolomon::decode` (lines 102-115): fails when the data is shorter
than the parity suffix, otherwise strips the trailing parity bytes without
inspecting them. -/
def ReedSolomon.decode (rs : ReedSolomon) (data : List Nat) : Except String (List Nat) :=
  if data.length < rs.parity_bytes then
    Except.error "Data too short"
  else
    Except.ok (data.take (data.length - rs.parity_bytes))

/-- Struct `OpticalCarrier` (lines 122-128). -/
structure OpticalCarrier where
  width : Nat
  height : Nat
  pixel_data : List Nat
  prime_walk : PrimeWalk
  rs : ReedSolomon
  deriving DecidableEq

/-- `OpticalCarrier::new` (lines 131-139).  `width * height * 4` is `u32`
arithmetic, made explicit with `% 2 ^ 32`. -/
def OpticalCarrier.new (width height : Nat) : OpticalCarrier :=
  { width := width
    height := height
    pixel_data := List.replicate (width * height * 4 % 2 ^ 32) 0
    prime_walk := PrimeWalk.new 0x54454E54
    rs := ReedSolomon.new RS_PARITY }

/-- `OpticalCarrier::ingest_frame` (lines 142-144). -/
def OpticalCarrier.ingest_frame (c : OpticalCarrier) (data : List Nat) : OpticalCarrier :=
  { c with pixel_data := data }

/-- The loop of `extract_blue_lsb` (lines 147-158): visit byte indices
`2, 6, 10, ...` (`(2..len).step_by(4)`) and keep the low
`BITS_PER_CHANNEL = 2` bits of each.  The mask is `(1 << 2) - 1 = 3`. -/
def blueLsb : List Nat → List Nat
  | _ :: _ :: b :: _ :: rest => (b &&& 3) :: blueLsb rest
  | [_, _, b] => [b &&& 3]
  | _ => []

/-- `OpticalCarrier::extract_blue_lsb` (lines 147-158). -/
def OpticalCarrier.extract_blue_lsb (c : OpticalCarrier) : List Nat :=
  blueLsb c.pixel_data

/-- `bits.chunks(4)` of the source: chunks of four symbols, the final chunk
possibly shorter (lines 165). -/
def chunks4 : List Nat → List (List Nat)
  | [] => []
  | a :: b :: c :: d :: rest => [a, b, c, d] :: chunks4 rest
  | l => [l]

/-- The inner loop of `bits_to_bytes` (lines 166-170): recombine one chunk
into a byte, `byte |= b << (BITS_PER_CHANNEL * (bits_per_byte - 1 - i))`,
where the `u8` shift wraps modulo 256. -/
def symbolsToByte (chunk : List Nat) : Nat :=
  chunk.enum.foldl
    (fun byte ib =>
      byte ||| ((ib.2 <<< (BITS_PER_CHANNEL * (8 / BITS_PER_CHANNEL - 1 - ib.1))) % 256))
    0

/-- `OpticalCarrier::bits_to_bytes` (lines 161-174). -/
def bits_to_bytes (bits : List Nat) : List Nat :=
  (chunks4 bits).map symbolsToByte

/-- The inner loop of `bytes_to_bits` (lines 265-269): for each byte, emit
`8 / BITS_PER_CHANNEL = 4` symbols, most-significant group first, each
masked to the low 2 bits. -/
def byteToBits (byte : Nat) : List Nat :=
  (List.range (8 / BITS_PER_CHANNEL)).reverse.map
    (fun i => (byte >>> (i * BITS_PER_CHANNEL)) &&& 3)

/-- `OpticalCarrier::bytes_to_bits` (lines 260-272). -/
def bytes_to_bits : List Nat → List Nat
  | [] => []
  | b :: rest => byteToBits b ++ bytes_to_bits rest

/-- The loop of `find_magic` (lines 178-182): scan positions
`0 <= i < data.len().saturating_sub(4)` upward, returning the first `i`
whose 4-byte slice equals `TENT_MAGIC`.  `i < len - 4` (saturating) is
written `i + 4 < len`. -/
def findMagicAux (data : List Nat) (i : Nat) : Option Nat :=
  if h : i + 4 < data.length then
    if (data.drop i).take 4 = TENT_MAGIC then some i
    else findMagicAux data (i + 1)
  else none
  termination_by data.length - i

/-- `OpticalCarrier::find_magic` (lines 177-184). -/
def find_magic (data : List Nat) : Option Nat :=
  findMagicAux data 0

/-- `(n as u32).to_be_bytes()`: truncate to `u32` and split big-endian. -/
def u32_to_be_bytes (n : Nat) : List Nat :=
  [((n % 2 ^ 32) >>> 24) &&& 255, ((n % 2 ^ 32) >>> 16) &&& 255,
   ((n % 2 ^ 32) >>> 8) &&& 255, (n % 2 ^ 32) &&& 255]

/-- `u32::from_be_bytes` (lines 202-207). -/
def u32_from_be_bytes (b0 b1 b2 b3 : Nat) : Nat :=
  (b0 <<< 24) ||| (b1 <<< 16) ||| (b2 <<< 8) ||| b3

/-- `OpticalCarrier::extract_payload` (lines 187-223). -/
def OpticalCarrier.extract_payload (c : OpticalCarrier) : Except String (List Nat) :=
  let bits := c.extract_blue_lsb
  let raw_bytes := bits_to_bytes bits
  match find_magic raw_bytes with
  | none => Except.error "No TENT payload found"
  | some magic_pos =>
    if raw_bytes.length < magic_pos + 8 then
      Except.error "Truncated header"
    else
      let length := u32_from_be_bytes (raw_bytes.getD (magic_pos + 4) 0)
        (raw_bytes.getD (magic_pos + 5) 0) (raw_bytes.getD (magic_pos + 6) 0)
        (raw_bytes.getD (magic_pos + 7) 0)
      let payload_start := magic_pos + 8
      let payload_end := payload_start + length
      if raw_bytes.length < payload_end then
        Except.error "Payload extends beyond image"
      else
        c.rs.decode ((raw_bytes.drop payload_start).take length)

/-- The write loop of `inject_payload` (lines 242-250): walk byte indices
`2, 6, 10, ...`, and while symbols remain, clear the low 2 bits
(`& !3 = & 252`) and OR the next symbol in.  Stops when either the symbols
or the blue slots run out. -/
def write_blue : List Nat → List Nat → List Nat
  | px, [] => px
  | r :: g :: b :: a :: rest, s :: ss => r :: g :: ((b &&& 252) ||| s) :: a :: write_blue rest ss
  | [r, g, b], s :: _ => [r, g, (b &&& 252) ||| s]
  | px, _ => px

/-- The number of blue-channel slots of a buffer: how many indices
`2, 6, 10, ...` are in range; the iteration count of the injection and
extraction loops. -/
def numBlueSlots : List Nat → Nat
  | _ :: _ :: _ :: _ :: rest => numBlueSlots rest + 1
  | [_, _, _] => 1
  | _ => 0

/-- `OpticalCarrier::inject_payload` (lines 226-257).  The Rust method
mutates `self.pixel_data` in place and then reports the error, so the
embedding returns the result together with the (possibly partially
modified) carrier. -/
def OpticalCarrier.inject_payload (c : OpticalCarrier) (payload : List Nat) :
    Except String Unit × OpticalCarrier :=
  let encoded := c.rs.encode payload
  let full_payload := TENT_MAGIC ++ u32_to_be_bytes encoded.length ++ encoded
  let bits := bytes_to_bits full_payload
  let c2 := { c with pixel_data := write_blue c.pixel_data bits }
  if numBlueSlots c.pixel_data < bits.length then
    (Except.error "Image too small for payload", c2)
  else
    (Except.ok (), c2)

/-- `OpticalCarrier::get_pixel_data` (lines 275-277). -/
def OpticalCarrier.get_pixel_data (c : OpticalCarrier) : List Nat :=
  c.pixel_data

/-- `OpticalCarrier::dimensions` (lines 280-282). -/
def OpticalCarrier.dimensions (c : OpticalCarrier) : Nat × Nat :=
  (c.width, c.height)

/-- The capacity of a buffer in embeddable bytes (spec section 6: usable
bits are two per blue-channel slot, eight bits per byte). -/
def capacityBytes (px : List Nat) : Nat :=
  numBlueSlots px / 4

/-! ## Helper lemmas -/

theorem or_shift_add {b k : Nat} (a : Nat) (hb : b < 2 ^ k) :
    (a <<< k) ||| b = a * 2 ^ k + b := by
  rw [Nat.shiftLeft_eq, Nat.mul_comm, ← Nat.mul_add_lt_is_or hb, Nat.mul_comm]

theorem u32_from_be_bytes_eq (b0 b1 b2 b3 : Nat) (_h0 : b0 < 256) (h1 : b1 < 256)
    (h2 : b2 < 256) (h3 : b3 < 256) :
    u32_from_be_bytes b0 b1 b2 b3 = b0 * 2 ^ 24 + b1 * 2 ^ 16 + b2 * 2 ^ 8 + b3 := by
  unfold u32_from_be_bytes
  rw [Nat.or_assoc, Nat.or_assoc]
  rw [or_shift_add b2 (show b3 < 2 ^ 8 by omega)]
  rw [or_shift_add b1 (show b2 * 2 ^ 8 + b3 < 2 ^ 16 by omega)]
  rw [or_shift_add b0 (show b1 * 2 ^ 16 + (b2 * 2 ^ 8 + b3) < 2 ^ 24 by omega)]
  omega

theorem u32_to_be_bytes_lt (n : Nat) :
    ∀ b ∈ u32_to_be_bytes n, b < 256 := by
  intro b hb
  have h255 : ∀ x : Nat, x &&& 255 < 256 :=
    fun x => Nat.lt_succ_of_le Nat.and_le_right
  simp only [u32_to_be_bytes, List.mem_cons, List.not_mem_nil, or_false] at hb
  rcases hb with h | h | h | h <;> (subst h; exact h255 _)

theorem u32_round_trip (n : Nat) (h : n < 2 ^ 32) :
    u32_from_be_bytes (((n % 2 ^ 32) >>> 24) &&& 255) (((n % 2 ^ 32) >>> 16) &&& 255)
      (((n % 2 ^ 32) >>> 8) &&& 255) ((n % 2 ^ 32) &&& 255) = n := by
  have hm : n % 2 ^ 32 = n := Nat.mod_eq_of_lt h
  rw [hm]
  have h255 : (255 : Nat) = 2 ^ 8 - 1 := rfl
  rw [h255, Nat.and_pow_two_sub_one_eq_mod, Nat.and_pow_two_sub_one_eq_mod,
    Nat.and_pow_two_sub_one_eq_mod, Nat.and_pow_two_sub_one_eq_mod,
    Nat.shiftRight_eq_div_pow, Nat.shiftRight_eq_div_pow, Nat.shiftRight_eq_div_pow]
  rw [u32_from_be_bytes_eq _ _ _ _ (Nat.mod_lt _ (by omega)) (Nat.mod_lt _ (by omega))
    (Nat.mod_lt _ (by omega)) (Nat.mod_lt _ (by omega))]
  omega

theorem byteToBits_eq (b : Nat) :
    byteToBits b = [(b >>> 6) &&& 3, (b >>> 4) &&& 3, (b >>> 2) &&& 3, (b >>> 0) &&& 3] := rfl

set_option maxRecDepth 10000 in
theorem symbolsToByte_byteToBits : ∀ b < 256, symbolsToByte (byteToBits b) = b := by decide

theorem bits_to_bytes_cons4 (a b c d : Nat) (l : List Nat) :
    bits_to_bytes (a :: b :: c :: d :: l) = symbolsToByte [a, b, c, d] :: bits_to_bytes l := rfl

theorem bytes_to_bits_cons (b : Nat) (l : List Nat) :
    bytes_to_bits (b :: l) = byteToBits b ++ bytes_to_bits l := rfl

theorem bytes_to_bits_length (l : List Nat) : (bytes_to_bits l).length = 4 * l.length := by
  induction l with
  | nil => rfl
  | cons b t ih =>
    rw [bytes_to_bits_cons, List.length_append, ih]
    simp [byteToBits_eq]
    omega

theorem bytes_to_bits_lt (l : List Nat) : ∀ s ∈ bytes_to_bits l, s < 4 := by
  induction l with
  | nil => intro s hs; simp [bytes_to_bits] at hs
  | cons b t ih =>
    intro s hs
    rw [bytes_to_bits_cons] at hs
    have h3 : ∀ x : Nat, x &&& 3 < 4 := fun x => Nat.lt_succ_of_le Nat.and_le_right
    rcases List.mem_append.mp hs with h | h
    · rw [byteToBits_eq] at h
      simp only [List.mem_cons, List.not_mem_nil, or_false] at h
      rcases h with h | h | h | h <;> (subst h; exact h3 _)
    · exact ih s h

theorem bits_to_bytes_append4 (l r : List Nat) (hl : ∀ b ∈ l, b < 256) :
    bits_to_bytes (bytes_to_bits l ++ r) = l ++ bits_to_bytes r := by
  induction l with
  | nil => simp [bytes_to_bits]
  | cons b t ih =>
    have hb : b < 256 := hl b (List.mem_cons_self b t)
    rw [bytes_to_bits_cons, byteToBits_eq, List.append_assoc]
    simp only [List.cons_append, List.nil_append]
    rw [bits_to_bytes_cons4, ih (fun x hx => hl x (List.mem_cons_of_mem b hx))]
    have hs := symbolsToByte_byteToBits b hb
    rw [byteToBits_eq] at hs
    rw [hs]

/-! ## Claims about the bit packer -/

/-- Claim C7: converting bytes to 2-bit symbols (four per byte, most
significant group first, each in the low two bits) and back returns the
original byte sequence. -/
theorem claim_C7 (b : List Nat) (hb : ∀ x ∈ b, x < 256) :
    bits_to_bytes (bytes_to_bits b) = b
    ∧ (bytes_to_bits b).length = 4 * b.length
    ∧ (∀ s ∈ bytes_to_bits b, s < 4)
    ∧ ∀ x : Nat, byteToBits x =
        [(x >>> 6) &&& 3, (x >>> 4) &&& 3, (x >>> 2) &&& 3, (x >>> 0) &&& 3] := by
  refine ⟨?_, bytes_to_bits_length b, bytes_to_bits_lt b, fun x => byteToBits_eq x⟩
  have h := bits_to_bytes_append4 b [] hb
  rw [List.append_nil] at h
  rw [h]
  rw [show bits_to_bytes [] = [] from rfl, List.append_nil]

/-- Claim C7 witness: round trip on the concrete byte sequence `[171, 0, 255]`. -/
theorem claim_C7_witness :
    (∀ x ∈ ([171, 0, 255] : List Nat), x < 256)
    ∧ (bits_to_bytes (bytes_to_bits [171, 0, 255]) = [171, 0, 255]
      ∧ (bytes_to_bits [171, 0, 255]).length = 4 * ([171, 0, 255] : List Nat).length
      ∧ (∀ s ∈ bytes_to_bits [171, 0, 255], s < 4)
      ∧ ∀ x : Nat, byteToBits x =
          [(x >>> 6) &&& 3, (x >>> 4) &&& 3, (x >>> 2) &&& 3, (x >>> 0) &&& 3]) :=
  ⟨by decide, claim_C7 [171, 0, 255] (by decide)⟩

theorem symbolsToByte_pad1 (a : Nat) : symbolsToByte [a, 0, 0, 0] = symbolsToByte [a] := by
  simp [symbolsToByte, List.enum, List.enumFrom, Nat.zero_shiftLeft]

theorem symbolsToByte_pad2 (a b : Nat) :
    symbolsToByte [a, b, 0, 0] = symbolsToByte [a, b] := by
  simp [symbolsToByte, List.enum, List.enumFrom, Nat.zero_shiftLeft]

theorem symbolsToByte_pad3 (a b c : Nat) :
    symbolsToByte [a, b, c, 0] = symbolsToByte [a, b, c] := by
  simp [symbolsToByte, List.enum, List.enumFrom, Nat.zero_shiftLeft]

/-- Claim C4 counterexample: a single leftover symbol is not dropped; the
conversion emits one byte (the symbol packed into the two highest bits),
not `floor(1/4) = 0` bytes. -/
theorem claim_C4_counterexample :
    (bits_to_bytes [1]).length ≠ ([1] : List Nat).length / 4 ∧ bits_to_bytes [1] = [64] := by
  decide

/-- Claim C4 amended: a symbol sequence whose length is not a multiple of 4
keeps its trailing partial group: the output has `ceil(len/4)` bytes, the
first `floor(len/4)` of which are determined by the complete groups alone,
and the result agrees with zero-padding the symbol stream to a multiple of
four symbols. -/
theorem claim_C4_amended (bits : List Nat) :
    (bits_to_bytes bits).length = (bits.length + 3) / 4
    ∧ (bits_to_bytes bits).take (bits.length / 4) =
        bits_to_bytes (bits.take (4 * (bits.length / 4)))
    ∧ bits_to_bytes bits =
        bits_to_bytes (bits ++ List.replicate ((4 - bits.length % 4) % 4) 0) := by
  induction bits using chunks4.induct with
  | case1 => exact ⟨rfl, rfl, rfl⟩
  | case2 a b c d rest ih =>
    obtain ⟨ih1, ih2, ih3⟩ := ih
    refine ⟨?_, ?_, ?_⟩
    · rw [bits_to_bytes_cons4]
      simp only [List.length_cons]
      rw [ih1]
      omega
    · have hlen : (a :: b :: c :: d :: rest).length = rest.length + 4 := by simp
      rw [hlen]
      rw [show (rest.length + 4) / 4 = rest.length / 4 + 1 by omega]
      rw [bits_to_bytes_cons4, List.take_succ_cons]
      rw [show 4 * (rest.length / 4 + 1) = 4 * (rest.length / 4) + 1 + 1 + 1 + 1 by omega]
      rw [List.take_succ_cons, List.take_succ_cons, List.take_succ_cons, List.take_succ_cons]
      rw [bits_to_bytes_cons4, ih2]
    · have hlen : (a :: b :: c :: d :: rest).length = rest.length + 4 := by simp
      rw [hlen]
      rw [show (rest.length + 4) % 4 = rest.length % 4 by omega]
      rw [show (a :: b :: c :: d :: rest) ++
            List.replicate ((4 - rest.length % 4) % 4) 0 =
          a :: b :: c :: d :: (rest ++ List.replicate ((4 - rest.length % 4) % 4) 0) by simp]
      rw [bits_to_bytes_cons4, bits_to_bytes_cons4, ih3]
  | case3 l h1 h2 =>
    rcases l with _ | ⟨a, _ | ⟨b, _ | ⟨c, _ | ⟨d, t⟩⟩⟩⟩
    · exact absurd rfl h1
    · refine ⟨by norm_num [bits_to_bytes, chunks4], by norm_num [bits_to_bytes, chunks4], ?_⟩
      rw [show ([a] : List Nat) ++ List.replicate ((4 - [a].length % 4) % 4) 0 =
          [a, 0, 0, 0] from rfl]
      rw [show bits_to_bytes [a] = [symbolsToByte [a]] from rfl]
      rw [show bits_to_bytes [a, 0, 0, 0] = [symbolsToByte [a, 0, 0, 0]] from rfl]
      rw [symbolsToByte_pad1]
    · refine ⟨by norm_num [bits_to_bytes, chunks4], by norm_num [bits_to_bytes, chunks4], ?_⟩
      rw [show ([a, b] : List Nat) ++ List.replicate ((4 - [a, b].length % 4) % 4) 0 =
          [a, b, 0, 0] from rfl]
      rw [show bits_to_bytes [a, b] = [symbolsToByte [a, b]] from rfl]
      rw [show bits_to_bytes [a, b, 0, 0] = [symbolsToByte [a, b, 0, 0]] from rfl]
      rw [symbolsToByte_pad2]
    · refine ⟨by norm_num [bits_to_bytes, chunks4], by norm_num [bits_to_bytes, chunks4], ?_⟩
      rw [show ([a, b, c] : List Nat) ++ List.replicate ((4 - [a, b, c].length % 4) % 4) 0 =
          [a, b, c, 0] from rfl]
      rw [show bits_to_bytes [a, b, c] = [symbolsToByte [a, b, c]] from rfl]
      rw [show bits_to_bytes [a, b, c, 0] = [symbolsToByte [a, b, c, 0]] from rfl]
      rw [symbolsToByte_pad3]
    · exact absurd rfl (h2 a b c d t)


theorem findMagicAux_some_iff (data : List Nat) (i j : Nat) :
    findMagicAux data i = some j ↔
      i ≤ j ∧ j + 4 < data.length ∧ (data.drop j).take 4 = TENT_MAGIC ∧
        ∀ k, i ≤ k → k < j → (data.drop k).take 4 ≠ TENT_MAGIC := by
  induction i using findMagicAux.induct data with
  | case1 i h heq =>
    rw [findMagicAux, dif_pos h, if_pos heq]
    constructor
    · intro hs
      obtain rfl : i = j := Option.some.inj hs
      exact ⟨le_refl i, h, heq, fun k hk hkj => absurd hkj (by omega)⟩
    · rintro ⟨hij, hj4, hjm, hmin⟩
      rcases Nat.lt_or_ge i j with hlt | hge
      · exact absurd heq (hmin i (le_refl i) hlt)
      · obtain rfl : i = j := Nat.le_antisymm hij hge
        rfl
  | case2 i h hne ih =>
    rw [findMagicAux, dif_pos h, if_neg hne, ih]
    constructor
    · rintro ⟨h1, h2, h3, h4⟩
      refine ⟨by omega, h2, h3, fun k hk hkj => ?_⟩
      rcases Nat.eq_or_lt_of_le hk with he | hl
      · exact he ▸ hne
      · exact h4 k (by omega) hkj
    · rintro ⟨h1, h2, h3, h4⟩
      refine ⟨?_, h2, h3, fun k hk hkj => h4 k (by omega) hkj⟩
      rcases Nat.eq_or_lt_of_le h1 with he | hl
      · exact absurd (he ▸ h3) hne
      · omega
  | case3 i h =>
    rw [findMagicAux, dif_neg h]
    constructor
    · intro hfalse
      cases hfalse
    · rintro ⟨h1, h2, _, _⟩
      omega

theorem find_magic_some_iff (data : List Nat) (j : Nat) :
    find_magic data = some j ↔
      j + 4 < data.length ∧ (data.drop j).take 4 = TENT_MAGIC ∧
        ∀ k < j, (data.drop k).take 4 ≠ TENT_MAGIC := by
  rw [find_magic, findMagicAux_some_iff]
  constructor
  · rintro ⟨_, h2, h3, h4⟩
    exact ⟨h2, h3, fun k hk => h4 k (Nat.zero_le k) hk⟩
  · rintro ⟨h2, h3, h4⟩
    exact ⟨Nat.zero_le j, h2, h3, fun k _ hk => h4 k hk⟩

theorem find_magic_none_iff (data : List Nat) :
    find_magic data = none ↔
      ∀ j, j + 4 < data.length → (data.drop j).take 4 ≠ TENT_MAGIC := by
  constructor
  · intro hn j hj hm
    have hex : ∃ k, k + 4 < data.length ∧ (data.drop k).take 4 = TENT_MAGIC := ⟨j, hj, hm⟩
    have hspec := Nat.find_spec hex
    have hmin := fun m (hm2 : m < Nat.find hex) => Nat.find_min hex hm2
    have : find_magic data = some (Nat.find hex) := by
      rw [find_magic_some_iff]
      refine ⟨hspec.1, hspec.2, fun k hk hcontra => ?_⟩
      exact hmin k hk ⟨by omega, hcontra⟩
    rw [hn] at this
    cases this
  · intro hall
    cases h : find_magic data with
    | none => rfl
    | some m =>
      have := (find_magic_some_iff data m).mp h
      exact absurd this.2.1 (hall m this.1)

set_option maxRecDepth 10000 in
theorem blue_low_bits : ∀ b < 256, ∀ s < 4, ((b &&& 252) ||| s) &&& 3 = s := by decide

set_option maxRecDepth 10000 in
theorem blue_high_bits : ∀ b < 256, ∀ s < 4, ((b &&& 252) ||| s) >>> 2 = b >>> 2 := by decide

theorem write_blue_nil (px : List Nat) : write_blue px [] = px := by
  rcases px with _ | ⟨x, _ | ⟨y, _ | ⟨z, _ | ⟨w, rest⟩⟩⟩⟩ <;> rfl

theorem write_blue_length (px bits : List Nat) : (write_blue px bits).length = px.length := by
  induction px, bits using write_blue.induct with
  | case1 px => rw [write_blue_nil]
  | case2 r g b a rest s ss ih =>
    rw [show write_blue (r :: g :: b :: a :: rest) (s :: ss) =
        r :: g :: ((b &&& 252) ||| s) :: a :: write_blue rest ss from rfl]
    simp only [List.length_cons, ih]
  | case3 r g b s t => rfl
  | case4 px bits h1 h2 h3 =>
    rcases bits with _ | ⟨s, ss⟩
    · exact absurd rfl h1
    · rcases px with _ | ⟨x, _ | ⟨y, _ | ⟨z, _ | ⟨w, rest⟩⟩⟩⟩
      · rfl
      · rfl
      · rfl
      · exact absurd rfl (h3 x y z s ss rfl)
      · exact absurd rfl (h2 x y z w rest s ss rfl)

theorem write_blue_getD (px bits : List Nat) (i : Nat) :
    (write_blue px bits).getD i 0 =
      if i % 4 = 2 ∧ i < px.length ∧ (i - 2) / 4 < bits.length then
        (px.getD i 0 &&& 252) ||| bits.getD ((i - 2) / 4) 0
      else px.getD i 0 := by
  induction px, bits using write_blue.induct generalizing i with
  | case1 px =>
    rw [if_neg]
    · rw [write_blue_nil]
    · rintro ⟨-, -, h⟩
      simp at h
  | case2 r g b a rest s ss ih =>
    match i with
    | 0 => rw [if_neg (by omega)]; rfl
    | 1 => rw [if_neg (by omega)]; rfl
    | 2 =>
      rw [if_pos ⟨rfl, by simp, by simp⟩]
      rfl
    | 3 => rw [if_neg (by omega)]; rfl
    | (n + 4) =>
      have lhs : (write_blue (r :: g :: b :: a :: rest) (s :: ss)).getD (n + 4) 0 =
          (write_blue rest ss).getD n 0 := by
        rw [show write_blue (r :: g :: b :: a :: rest) (s :: ss) =
            r :: g :: ((b &&& 252) ||| s) :: a :: write_blue rest ss from rfl]
        simp only [List.getD_cons_succ]
      rw [lhs, ih]
      by_cases hc : n % 4 = 2 ∧ n < rest.length ∧ (n - 2) / 4 < ss.length
      · obtain ⟨hc1, hc2, hc3⟩ := hc
        rw [if_pos ⟨hc1, hc2, hc3⟩, if_pos]
        · have h1 : (r :: g :: b :: a :: rest).getD (n + 4) 0 = rest.getD n 0 := by
            simp only [List.getD_cons_succ]
          have h2 : (n + 4 - 2) / 4 = (n - 2) / 4 + 1 := by omega
          rw [h1, h2, List.getD_cons_succ]
        · refine ⟨by omega, by simp only [List.length_cons]; omega, ?_⟩
          have h2 : (n + 4 - 2) / 4 = (n - 2) / 4 + 1 := by omega
          rw [h2]
          simp only [List.length_cons]
          omega
      · rw [if_neg hc, if_neg]
        · simp only [List.getD_cons_succ]
        · rintro ⟨h1, h2, h3⟩
          simp only [List.length_cons] at h2 h3
          exact hc ⟨by omega, by omega, by omega⟩
  | case3 r g b s t =>
    match i with
    | 0 => rw [if_neg (by omega)]; rfl
    | 1 => rw [if_neg (by omega)]; rfl
    | 2 =>
      rw [if_pos ⟨rfl, by simp, by simp⟩]
      rfl
    | (n + 3) =>
      rw [if_neg]
      · show (List.getD [r, g, (b &&& 252) ||| s] (n + 3) 0) = List.getD [r, g, b] (n + 3) 0
        simp only [List.getD_cons_succ]
      · rintro ⟨h1, h2, -⟩
        simp only [List.length_cons, List.length_nil] at h2
        omega
  | case4 px bits h1 h2 h3 =>
    rcases bits with _ | ⟨s, ss⟩
    · exact absurd rfl h1
    · rcases px with _ | ⟨x, _ | ⟨y, _ | ⟨z, _ | ⟨w, rest⟩⟩⟩⟩
      · rw [if_neg]
        · rfl
        · rintro ⟨-, h, -⟩
          simp at h
      · rw [if_neg]
        · rfl
        · rintro ⟨ha, hb, -⟩
          simp only [List.length_cons, List.length_nil] at hb
          omega
      · rw [if_neg]
        · rfl
        · rintro ⟨ha, hb, -⟩
          simp only [List.length_cons, List.length_nil] at hb
          omega
      · exact absurd rfl (h3 x y z s ss rfl)
      · exact absurd rfl (h2 x y z w rest s ss rfl)

theorem numBlueSlots_eq (px : List Nat) : numBlueSlots px = (px.length + 1) / 4 := by
  induction px using numBlueSlots.induct with
  | case1 a b c d rest ih =>
    rw [show numBlueSlots (a :: b :: c :: d :: rest) = numBlueSlots rest + 1 from rfl, ih]
    simp only [List.length_cons]
    omega
  | case2 a b c =>
    rw [show numBlueSlots [a, b, c] = 1 from rfl]
    simp only [List.length_cons, List.length_nil]
  | case3 px h1 h2 =>
    rcases px with _ | ⟨x, _ | ⟨y, _ | ⟨z, _ | ⟨w, rest⟩⟩⟩⟩
    · rfl
    · rw [show numBlueSlots [x] = 0 from rfl]
      simp only [List.length_cons, List.length_nil]
    · rw [show numBlueSlots [x, y] = 0 from rfl]
      simp only [List.length_cons, List.length_nil]
    · exact absurd rfl (h2 x y z)
    · exact absurd rfl (h1 x y z w rest)

theorem blueLsb_write_blue (px bits : List Nat) (hpx : ∀ b ∈ px, b < 256)
    (hs : ∀ s ∈ bits, s < 4) (hlen : bits.length ≤ numBlueSlots px) :
    blueLsb (write_blue px bits) = bits ++ (blueLsb px).drop bits.length := by
  induction px, bits using write_blue.induct with
  | case1 px => simp [write_blue_nil]
  | case2 r g b a rest s ss ih =>
    have hb : b < 256 := hpx b (by simp)
    have hs4 : s < 4 := hs s (by simp)
    rw [show write_blue (r :: g :: b :: a :: rest) (s :: ss) =
        r :: g :: ((b &&& 252) ||| s) :: a :: write_blue rest ss from rfl]
    rw [show blueLsb (r :: g :: ((b &&& 252) ||| s) :: a :: write_blue rest ss) =
        (((b &&& 252) ||| s) &&& 3) :: blueLsb (write_blue rest ss) from rfl]
    rw [blue_low_bits b hb s hs4]
    rw [ih (fun x hx => hpx x (by simp [hx])) (fun x hx => hs x (by simp [hx]))
      (by rw [show numBlueSlots (r :: g :: b :: a :: rest) = numBlueSlots rest + 1 from rfl]
            at hlen
          simpa using hlen)]
    rw [show blueLsb (r :: g :: b :: a :: rest) = (b &&& 3) :: blueLsb rest from rfl]
    simp [List.drop_succ_cons]
  | case3 r g b s t =>
    have hb : b < 256 := hpx b (by simp)
    have hs4 : s < 4 := hs s (by simp)
    have ht : t = [] := by
      rw [show numBlueSlots [r, g, b] = 1 from rfl] at hlen
      simp only [List.length_cons] at hlen
      exact List.eq_nil_of_length_eq_zero (by omega)
    subst ht
    rw [show write_blue [r, g, b] [s] = [r, g, (b &&& 252) ||| s] from rfl]
    rw [show blueLsb [r, g, (b &&& 252) ||| s] = [((b &&& 252) ||| s) &&& 3] from rfl]
    rw [blue_low_bits b hb s hs4]
    rfl
  | case4 px bits h1 h2 h3 =>
    rcases bits with _ | ⟨s, ss⟩
    · exact absurd rfl h1
    · rcases px with _ | ⟨x, _ | ⟨y, _ | ⟨z, _ | ⟨w, rest⟩⟩⟩⟩
      · rw [show numBlueSlots ([] : List Nat) = 0 from rfl] at hlen
        simp at hlen
      · rw [show numBlueSlots [x] = 0 from rfl] at hlen
        simp at hlen
      · rw [show numBlueSlots [x, y] = 0 from rfl] at hlen
        simp at hlen
      · exact absurd rfl (h3 x y z s ss rfl)
      · exact absurd rfl (h2 x y z w rest s ss rfl)

theorem rs_encode_length (rs : ReedSolomon) (data : List Nat) :
    (rs.encode data).length = data.length + rs.parity_bytes := by
  simp [ReedSolomon.encode]

theorem rotl8_lt (b r : Nat) : rotl8 b r < 256 :=
  Nat.lt_succ_of_le Nat.and_le_right

theorem rs_parity_byte_lt (data : List Nat) (i : Nat) : rs_parity_byte data i < 256 := by
  unfold rs_parity_byte
  have haux : ∀ (l : List (Nat × Nat)) (init : Nat), init < 256 →
      l.foldl (fun parity jb => parity ^^^ rotl8 jb.2 ((i + jb.1) % 8)) init < 256 := by
    intro l
    induction l with
    | nil => intro init h; exact h
    | cons x t ih =>
      intro init h
      exact ih _ (Nat.xor_lt_two_pow (n := 8) h (rotl8_lt _ _))
  exact haux _ 0 (by omega)

theorem rs_encode_lt (rs : ReedSolomon) (data : List Nat) (hd : ∀ b ∈ data, b < 256) :
    ∀ b ∈ rs.encode data, b < 256 := by
  intro b hb
  unfold ReedSolomon.encode at hb
  rcases List.mem_append.mp hb with h | h
  · exact hd b h
  · obtain ⟨j, -, rfl⟩ := List.mem_map.mp h
    exact rs_parity_byte_lt data j

/-- The symbol stream written by `inject_payload`: the frame
`MAGIC || length || encoded payload` packed into 2-bit symbols (the local
`bits` of the source method). -/
def frameBits (c : OpticalCarrier) (payload : List Nat) : List Nat :=
  bytes_to_bits (TENT_MAGIC ++ u32_to_be_bytes (c.rs.encode payload).length
    ++ c.rs.encode payload)

theorem inject_payload_eq (c : OpticalCarrier) (payload : List Nat) :
    c.inject_payload payload =
      (if numBlueSlots c.pixel_data < (frameBits c payload).length then
        Except.error "Image too small for payload"
      else Except.ok (),
      { c with pixel_data := write_blue c.pixel_data (frameBits c payload) }) := by
  by_cases hc : numBlueSlots c.pixel_data < (frameBits c payload).length
  · simp only [OpticalCarrier.inject_payload, frameBits] at hc ⊢
    rw [if_pos hc, if_pos hc]
  · simp only [OpticalCarrier.inject_payload, frameBits] at hc ⊢
    rw [if_neg hc, if_neg hc]

theorem frameBits_length (c : OpticalCarrier) (payload : List Nat) :
    (frameBits c payload).length = 4 * (8 + payload.length + c.rs.parity_bytes) := by
  unfold frameBits
  rw [bytes_to_bits_length]
  simp only [List.length_append, rs_encode_length]
  rw [show TENT_MAGIC.length = 4 from rfl, show ∀ n, (u32_to_be_bytes n).length = 4
    from fun n => rfl]
  omega

theorem frameBits_lt (c : OpticalCarrier) (payload : List Nat) :
    ∀ s ∈ frameBits c payload, s < 4 :=
  bytes_to_bits_lt _

theorem getD_append_left (l1 l2 : List Nat) (n : Nat) (h : n < l1.length) :
    (l1 ++ l2).getD n 0 = l1.getD n 0 := by
  rw [List.getD_eq_getElem?_getD, List.getElem?_append, if_pos h, List.getD_eq_getElem?_getD]

/-! ## Claims about injection -/

/-- Claim C8: injection, whether it succeeds or fails, changes only the blue
channel bytes (index 2 mod 4) and only their low two bits; the length of the
buffer and the width and height fields are unchanged. -/
theorem claim_C8 (c : OpticalCarrier) (payload : List Nat)
    (hpx : ∀ b ∈ c.pixel_data, b < 256) :
    ((c.inject_payload payload).2.pixel_data.length = c.pixel_data.length
    ∧ (c.inject_payload payload).2.width = c.width
    ∧ (c.inject_payload payload).2.height = c.height)
    ∧ ∀ i < c.pixel_data.length,
        (i % 4 ≠ 2 →
          (c.inject_payload payload).2.pixel_data.getD i 0 = c.pixel_data.getD i 0)
        ∧ (i % 4 = 2 →
            (c.inject_payload payload).2.pixel_data.getD i 0 >>> 2 =
              c.pixel_data.getD i 0 >>> 2) := by
  rw [inject_payload_eq]
  refine ⟨⟨write_blue_length _ _, rfl, rfl⟩, fun i hi => ⟨fun hne => ?_, fun heq => ?_⟩⟩
  · show (write_blue c.pixel_data (frameBits c payload)).getD i 0 = c.pixel_data.getD i 0
    rw [write_blue_getD, if_neg (by tauto)]
  · show (write_blue c.pixel_data (frameBits c payload)).getD i 0 >>> 2 =
      c.pixel_data.getD i 0 >>> 2
    rw [write_blue_getD]
    by_cases hc : (i - 2) / 4 < (frameBits c payload).length
    · rw [if_pos ⟨heq, hi, hc⟩]
      have hb : c.pixel_data.getD i 0 < 256 := by
        rw [List.getD_eq_getElem c.pixel_data 0 hi]
        exact hpx _ (List.getElem_mem hi)
      have hs : (frameBits c payload).getD ((i - 2) / 4) 0 < 4 := by
        rw [List.getD_eq_getElem _ 0 hc]
        exact frameBits_lt c payload _ (List.getElem_mem hc)
      exact blue_high_bits _ hb _ hs
    · rw [if_neg (by tauto)]

/-- Claim C8 witness: frame effect on a concrete 2x2 carrier. -/
theorem claim_C8_witness :
    (∀ b ∈ (OpticalCarrier.new 2 2).pixel_data, b < 256)
    ∧ ((((OpticalCarrier.new 2 2).inject_payload [1]).2.pixel_data.length =
          (OpticalCarrier.new 2 2).pixel_data.length
      ∧ (((OpticalCarrier.new 2 2).inject_payload [1]).2.width = (OpticalCarrier.new 2 2).width)
      ∧ (((OpticalCarrier.new 2 2).inject_payload [1]).2.height =
          (OpticalCarrier.new 2 2).height))
      ∧ ∀ i < (OpticalCarrier.new 2 2).pixel_data.length,
          (i % 4 ≠ 2 →
            ((OpticalCarrier.new 2 2).inject_payload [1]).2.pixel_data.getD i 0 =
              (OpticalCarrier.new 2 2).pixel_data.getD i 0)
          ∧ (i % 4 = 2 →
              ((OpticalCarrier.new 2 2).inject_payload [1]).2.pixel_data.getD i 0 >>> 2 =
                (OpticalCarrier.new 2 2).pixel_data.getD i 0 >>> 2)) :=
  ⟨by decide, claim_C8 (OpticalCarrier.new 2 2) [1] (by decide)⟩

/-- Claim C2: injection fails with CapacityExceeded exactly when the buffer
has fewer blue-channel slots than the `4 * (8 + len + 16)` frame symbols; an
exact fit succeeds; and on failure every blue slot has already been
overwritten with its frame symbol (no rollback). -/
theorem claim_C2 (c : OpticalCarrier) (payload : List Nat)
    (hrs : c.rs.parity_bytes = 16) :
    ((c.inject_payload payload).1 = Except.error "Image too small for payload" ↔
      numBlueSlots c.pixel_data < 4 * (8 + payload.length + 16))
    ∧ (numBlueSlots c.pixel_data = 4 * (8 + payload.length + 16) →
        (c.inject_payload payload).1 = Except.ok ())
    ∧ ((c.inject_payload payload).1 = Except.error "Image too small for payload" →
        ∀ i < c.pixel_data.length, i % 4 = 2 →
          (c.inject_payload payload).2.pixel_data.getD i 0 =
            (c.pixel_data.getD i 0 &&& 252) |||
              (frameBits c payload).getD ((i - 2) / 4) 0) := by
  have hflen : (frameBits c payload).length = 4 * (8 + payload.length + 16) := by
    rw [frameBits_length, hrs]
  rw [inject_payload_eq]
  refine ⟨?_, fun heq => ?_, fun herr i hi hmod => ?_⟩
  · show (if numBlueSlots c.pixel_data < (frameBits c payload).length then
        Except.error "Image too small for payload" else Except.ok ()) =
          Except.error "Image too small for payload" ↔ _
    rw [hflen]
    by_cases hc : numBlueSlots c.pixel_data < 4 * (8 + payload.length + 16)
    · simp [hc]
    · simp [hc]
  · show (if numBlueSlots c.pixel_data < (frameBits c payload).length then
        Except.error "Image too small for payload" else Except.ok ()) = Except.ok ()
    rw [hflen, if_neg (by omega)]
  · have hc : numBlueSlots c.pixel_data < (frameBits c payload).length := by
      by_contra hnc
      revert herr
      show ¬((if numBlueSlots c.pixel_data < (frameBits c payload).length then
          Except.error "Image too small for payload" else Except.ok (),
        { c with pixel_data := write_blue c.pixel_data (frameBits c payload) }).1 =
          Except.error "Image too small for payload")
      rw [if_neg hnc]
      intro hcontra
      exact Except.noConfusion hcontra
    show (write_blue c.pixel_data (frameBits c payload)).getD i 0 = _
    have hlt : (i - 2) / 4 < (frameBits c payload).length := by
      have h2 : (i - 2) / 4 < numBlueSlots c.pixel_data := by
        rw [numBlueSlots_eq]
        omega
      omega
    rw [write_blue_getD, if_pos ⟨hmod, hi, hlt⟩]

/-- Claim C2 witness: an 8x8 carrier (64 blue slots) cannot hold the 96-symbol
frame of the empty payload, and the failure leaves the slots overwritten. -/
theorem claim_C2_witness :
    (((OpticalCarrier.new 8 8).inject_payload []).1 =
        Except.error "Image too small for payload" ↔
      numBlueSlots (OpticalCarrier.new 8 8).pixel_data < 4 * (8 + ([] : List Nat).length + 16))
    ∧ (numBlueSlots (OpticalCarrier.new 8 8).pixel_data = 4 * (8 + ([] : List Nat).length + 16) →
        ((OpticalCarrier.new 8 8).inject_payload []).1 = Except.ok ())
    ∧ (((OpticalCarrier.new 8 8).inject_payload []).1 =
            Except.error "Image too small for payload" →
        ∀ i < (OpticalCarrier.new 8 8).pixel_data.length, i % 4 = 2 →
          ((OpticalCarrier.new 8 8).inject_payload []).2.pixel_data.getD i 0 =
            ((OpticalCarrier.new 8 8).pixel_data.getD i 0 &&& 252) |||
              (frameBits (OpticalCarrier.new 8 8) []).getD ((i - 2) / 4) 0) :=
  claim_C2 (OpticalCarrier.new 8 8) [] (by decide)

theorem extract_payload_of_stream (c2 : OpticalCarrier) (e T : List Nat)
    (hstream : bits_to_bytes (blueLsb c2.pixel_data) =
      TENT_MAGIC ++ u32_to_be_bytes e.length ++ e ++ T)
    (hrs2 : c2.rs.parity_bytes = 16)
    (hN : 16 ≤ e.length) (hL : e.length < 2 ^ 32) :
    c2.extract_payload = Except.ok (e.take (e.length - 16)) := by
  have hfind : find_magic (TENT_MAGIC ++ u32_to_be_bytes e.length ++ e ++ T) = some 0 := by
    rw [find_magic_some_iff]
    refine ⟨?_, ?_, fun k hk => absurd hk (Nat.not_lt_zero k)⟩
    · simp only [List.length_append]
      rw [show TENT_MAGIC.length = 4 from rfl,
        show (u32_to_be_bytes e.length).length = 4 from rfl]
      omega
    · rw [List.drop_zero, List.append_assoc, List.append_assoc]
      exact List.take_left' rfl
  have hlen8 : ¬((TENT_MAGIC ++ u32_to_be_bytes e.length ++ e ++ T).length < 0 + 8) := by
    simp only [List.length_append]
    rw [show TENT_MAGIC.length = 4 from rfl,
      show (u32_to_be_bytes e.length).length = 4 from rfl]
    omega
  have hg : ∀ k, k < 4 →
      (TENT_MAGIC ++ u32_to_be_bytes e.length ++ e ++ T).getD (4 + k) 0 =
        (u32_to_be_bytes e.length).getD k 0 := by
    intro k hk
    rw [show TENT_MAGIC ++ u32_to_be_bytes e.length ++ e ++ T =
        (TENT_MAGIC ++ u32_to_be_bytes e.length) ++ (e ++ T) by
      simp [List.append_assoc]]
    rw [getD_append_left]
    · rw [List.getD_eq_getElem?_getD, List.getElem?_append_right
        (show TENT_MAGIC.length ≤ 4 + k by rw [show TENT_MAGIC.length = 4 from rfl]; omega)]
      rw [show 4 + k - TENT_MAGIC.length = k by rw [show TENT_MAGIC.length = 4 from rfl]; omega]
      rw [List.getD_eq_getElem?_getD]
    · rw [List.length_append, show TENT_MAGIC.length = 4 from rfl,
        show (u32_to_be_bytes e.length).length = 4 from rfl]
      omega
  have hval : u32_from_be_bytes
      ((TENT_MAGIC ++ u32_to_be_bytes e.length ++ e ++ T).getD (0 + 4) 0)
      ((TENT_MAGIC ++ u32_to_be_bytes e.length ++ e ++ T).getD (0 + 5) 0)
      ((TENT_MAGIC ++ u32_to_be_bytes e.length ++ e ++ T).getD (0 + 6) 0)
      ((TENT_MAGIC ++ u32_to_be_bytes e.length ++ e ++ T).getD (0 + 7) 0) = e.length := by
    have h0 := hg 0 (by omega)
    have h1 := hg 1 (by omega)
    have h2 := hg 2 (by omega)
    have h3 := hg 3 (by omega)
    show u32_from_be_bytes
      ((TENT_MAGIC ++ u32_to_be_bytes e.length ++ e ++ T).getD (4 + 0) 0)
      ((TENT_MAGIC ++ u32_to_be_bytes e.length ++ e ++ T).getD (4 + 1) 0)
      ((TENT_MAGIC ++ u32_to_be_bytes e.length ++ e ++ T).getD (4 + 2) 0)
      ((TENT_MAGIC ++ u32_to_be_bytes e.length ++ e ++ T).getD (4 + 3) 0) = e.length
    rw [h0, h1, h2, h3]
    show u32_from_be_bytes (((e.length % 2 ^ 32) >>> 24) &&& 255)
      (((e.length % 2 ^ 32) >>> 16) &&& 255) (((e.length % 2 ^ 32) >>> 8) &&& 255)
      ((e.length % 2 ^ 32) &&& 255) = e.length
    exact u32_round_trip e.length hL
  have hlenall : (TENT_MAGIC ++ u32_to_be_bytes e.length ++ e ++ T).length =
      8 + e.length + T.length := by
    simp only [List.length_append]
    rw [show TENT_MAGIC.length = 4 from rfl,
      show (u32_to_be_bytes e.length).length = 4 from rfl]
    try omega
  have hdrop : (TENT_MAGIC ++ u32_to_be_bytes e.length ++ e ++ T).drop (0 + 8) = e ++ T := by
    rw [show TENT_MAGIC ++ u32_to_be_bytes e.length ++ e ++ T =
        (TENT_MAGIC ++ u32_to_be_bytes e.length) ++ (e ++ T) by
      simp [List.append_assoc]]
    exact List.drop_left' rfl
  unfold OpticalCarrier.extract_payload OpticalCarrier.extract_blue_lsb
  simp only [hstream, hfind]
  rw [if_neg hlen8, hval, if_neg (by rw [hlenall]; omega), hdrop, List.take_left]
  unfold ReedSolomon.decode
  rw [hrs2, if_neg (by omega)]

set_option maxRecDepth 100000 in
/-- Claim C1 counterexample: the spec condition `len + 16 <= capacity` leaves
no room for the 8 magic-and-length header bytes.  An 8x8 carrier has capacity
16 bytes, the empty payload satisfies `0 + 16 <= 16`, yet injection fails. -/
theorem claim_C1_counterexample :
    ([] : List Nat).length + 16 ≤ capacityBytes (OpticalCarrier.new 8 8).pixel_data
    ∧ ((OpticalCarrier.new 8 8).inject_payload []).1 =
        Except.error "Image too small for payload" := by
  decide

/-- Claim C1 amended: the round trip holds once the 8 header bytes are
counted: if `len(p) + 16 + 8 <= capacity` (and the encoded length fits the
`u32` length field), injection succeeds and extraction returns exactly `p`. -/
theorem claim_C1_amended (c : OpticalCarrier) (payload : List Nat)
    (hpx : ∀ b ∈ c.pixel_data, b < 256)
    (hpl : ∀ b ∈ payload, b < 256)
    (hrs : c.rs.parity_bytes = 16)
    (hsize : payload.length + 16 < 2 ^ 32)
    (hcap : payload.length + 16 + 8 ≤ capacityBytes c.pixel_data) :
    (c.inject_payload payload).1 = Except.ok ()
    ∧ (c.inject_payload payload).2.extract_payload = Except.ok payload := by
  have helen : (c.rs.encode payload).length = payload.length + 16 := by
    rw [rs_encode_length, hrs]
  have hflen : (frameBits c payload).length = 4 * (8 + payload.length + 16) := by
    rw [frameBits_length, hrs]
  have hslots : (frameBits c payload).length ≤ numBlueSlots c.pixel_data := by
    unfold capacityBytes at hcap
    omega
  constructor
  · rw [inject_payload_eq]
    show (if numBlueSlots c.pixel_data < (frameBits c payload).length then
        Except.error "Image too small for payload" else Except.ok ()) = Except.ok ()
    rw [if_neg (by omega)]
  · rw [inject_payload_eq]
    show OpticalCarrier.extract_payload
      { c with pixel_data := write_blue c.pixel_data (frameBits c payload) } =
      Except.ok payload
    have hblue : blueLsb (write_blue c.pixel_data (frameBits c payload)) =
        frameBits c payload ++ (blueLsb c.pixel_data).drop (frameBits c payload).length :=
      blueLsb_write_blue _ _ hpx (frameBits_lt c payload) hslots
    have hframe_lt : ∀ b ∈ TENT_MAGIC ++ u32_to_be_bytes (c.rs.encode payload).length
        ++ c.rs.encode payload, b < 256 := by
      intro b hb
      rcases List.mem_append.mp hb with h | h
      · rcases List.mem_append.mp h with h2 | h2
        · simp only [TENT_MAGIC, List.mem_cons, List.not_mem_nil, or_false] at h2
          rcases h2 with rfl | rfl | rfl | rfl <;> omega
        · exact u32_to_be_bytes_lt _ b h2
      · exact rs_encode_lt c.rs payload hpl b h
    have hex := extract_payload_of_stream
      { c with pixel_data := write_blue c.pixel_data (frameBits c payload) }
      (c.rs.encode payload)
      (bits_to_bytes ((blueLsb c.pixel_data).drop (frameBits c payload).length))
      (by
        show bits_to_bytes (blueLsb (write_blue c.pixel_data (frameBits c payload))) = _
        rw [hblue]
        exact bits_to_bytes_append4 _ _ hframe_lt)
      hrs
      (by omega)
      (by omega)
    have htake : (c.rs.encode payload).take ((c.rs.encode payload).length - 16) = payload := by
      rw [helen, show payload.length + 16 - 16 = payload.length by omega]
      unfold ReedSolomon.encode
      exact List.take_left _ _
    rw [htake] at hex
    exact hex

set_option maxRecDepth 1000000 in
/-- Claim C1 witness: a 10x10 carrier (100 blue slots, 25-byte capacity) with
the one-byte payload `[7]` fills the capacity exactly and round trips. -/
theorem claim_C1_witness :
    ((∀ b ∈ (OpticalCarrier.new 10 10).pixel_data, b < 256)
    ∧ (∀ b ∈ ([7] : List Nat), b < 256)
    ∧ (OpticalCarrier.new 10 10).rs.parity_bytes = 16
    ∧ ([7] : List Nat).length + 16 < 2 ^ 32
    ∧ ([7] : List Nat).length + 16 + 8 ≤ capacityBytes (OpticalCarrier.new 10 10).pixel_data)
    ∧ ((OpticalCarrier.new 10 10).inject_payload [7]).1 = Except.ok ()
    ∧ (((OpticalCarrier.new 10 10).inject_payload [7]).2).extract_payload = Except.ok [7] :=
  ⟨⟨by decide, by decide, by decide, by decide, by decide⟩,
    claim_C1_amended (OpticalCarrier.new 10 10) [7] (by decide) (by decide) (by decide)
      (by decide) (by decide)⟩

/-- A 4x4 RGBA buffer whose sixteen blue-channel low-bit pairs spell exactly
the four `TENT_MAGIC` bytes, so the decoded byte stream is `TENT_MAGIC`
itself and the magic occurs at position 0, the last possible position. -/
def cexPixels : List Nat :=
  [0, 0, 1, 0, 0, 0, 1, 0, 0, 0, 1, 0, 0, 0, 0, 0,
   0, 0, 1, 0, 0, 0, 0, 0, 0, 0, 1, 0, 0, 0, 1, 0,
   0, 0, 1, 0, 0, 0, 0, 0, 0, 0, 3, 0, 0, 0, 2, 0,
   0, 0, 1, 0, 0, 0, 1, 0, 0, 0, 1, 0, 0, 0, 0, 0]

/-- Claim C3 counterexample: a buffer whose decoded byte stream is exactly
the four magic bytes.  `MAGIC` occurs in the stream (at position 0), yet the
scan reports no payload, because the loop bound `0..len-4` excludes the
final possible match position. -/
theorem claim_C3_counterexample :
    bits_to_bytes (blueLsb cexPixels) = TENT_MAGIC
    ∧ ((OpticalCarrier.new 4 4).ingest_frame cexPixels).extract_payload =
        Except.error "No TENT payload found" := by
  have hmagic : find_magic TENT_MAGIC = none :=
    (find_magic_none_iff TENT_MAGIC).mpr
      (fun j hj => absurd hj (by rw [show TENT_MAGIC.length = 4 from rfl]; omega))
  constructor
  · decide
  · show ((OpticalCarrier.new 4 4).ingest_frame cexPixels).extract_payload =
      Except.error "No TENT payload found"
    unfold OpticalCarrier.extract_payload OpticalCarrier.extract_blue_lsb
    simp only
    rw [show bits_to_bytes (blueLsb
        ((OpticalCarrier.new 4 4).ingest_frame cexPixels).pixel_data) = TENT_MAGIC
      from by decide]
    rw [hmagic]

/-- Claim C3 amended: the scan locates the first occurrence of `MAGIC` among
positions `i` with `i + 4 < len` (an occurrence in the final four bytes, at
position `len - 4`, is never found), and `extract_payload` fails with
NoPayloadFound exactly when no such position matches. -/
theorem claim_C3_amended (data : List Nat) :
    (∀ j, find_magic data = some j ↔
      j + 4 < data.length ∧ (data.drop j).take 4 = TENT_MAGIC ∧
        ∀ k < j, (data.drop k).take 4 ≠ TENT_MAGIC)
    ∧ (find_magic data = none ↔
        ∀ j, j + 4 < data.length → (data.drop j).take 4 ≠ TENT_MAGIC)
    ∧ ∀ c : OpticalCarrier,
        (c.extract_payload = Except.error "No TENT payload found" ↔
          find_magic (bits_to_bytes (blueLsb c.pixel_data)) = none) := by
  refine ⟨fun j => find_magic_some_iff data j, find_magic_none_iff data, fun c => ?_⟩
  unfold OpticalCarrier.extract_payload OpticalCarrier.extract_blue_lsb
  cases h : find_magic (bits_to_bytes (blueLsb c.pixel_data)) with
  | none => simp [h]
  | some m =>
    simp only [h]
    constructor
    · intro he
      exfalso
      split at he
      · exact absurd he (by decide)
      · split at he
        · exact absurd he (by decide)
        · unfold ReedSolomon.decode at he
          split at he
          · exact absurd he (by decide)
          · exact Except.noConfusion he
    · intro hn
      cases hn

/-- Claim C3 witness: the amended scan law applied to the counterexample
carrier. -/
theorem claim_C3_witness :
    ((OpticalCarrier.new 4 4).ingest_frame cexPixels).extract_payload =
        Except.error "No TENT payload found" ↔
      find_magic (bits_to_bytes
        (blueLsb ((OpticalCarrier.new 4 4).ingest_frame cexPixels).pixel_data)) = none :=
  (claim_C3_amended []).2.2 ((OpticalCarrier.new 4 4).ingest_frame cexPixels)

/-- Claim C5: `ReedSolomon::decode` fails with the TooShort error exactly when
the data is shorter than the configured parity length; otherwise it returns
the data with the trailing parity bytes discarded, without inspecting them,
so the result is independent of the trailing parity byte values. -/
theorem claim_C5 (rs : ReedSolomon) :
    (∀ data : List Nat,
      (rs.decode data = Except.error "Data too short" ↔ data.length < rs.parity_bytes))
    ∧ (∀ data : List Nat, rs.parity_bytes ≤ data.length →
        rs.decode data = Except.ok (data.take (data.length - rs.parity_bytes)))
    ∧ (∀ front t1 t2 : List Nat, t1.length = rs.parity_bytes →
        t2.length = rs.parity_bytes →
        rs.decode (front ++ t1) = rs.decode (front ++ t2)) := by
  refine ⟨fun data => ?_, fun data h => ?_, fun front t1 t2 h1 h2 => ?_⟩
  · unfold ReedSolomon.decode
    split
    · simp_all
    · simp_all
  · unfold ReedSolomon.decode
    rw [if_neg (by omega)]
  · have d1 : rs.decode (front ++ t1) = Except.ok front := by
      unfold ReedSolomon.decode
      rw [if_neg (by simp [h1])]
      have : (front ++ t1).length - rs.parity_bytes = front.length := by simp [h1]
      rw [this, List.take_left]
    have d2 : rs.decode (front ++ t2) = Except.ok front := by
      unfold ReedSolomon.decode
      rw [if_neg (by simp [h2])]
      have : (front ++ t2).length - rs.parity_bytes = front.length := by simp [h2]
      rw [this, List.take_left]
    rw [d1, d2]

/-- Claim C5 witness: decoding is insensitive to the 16 trailing parity bytes. -/
theorem claim_C5_witness :
    (ReedSolomon.new 16).decode (List.replicate 20 7 ++ List.replicate 16 1) =
      (ReedSolomon.new 16).decode (List.replicate 20 7 ++ List.replicate 16 2) :=
  (claim_C5 (ReedSolomon.new 16)).2.2 (List.replicate 20 7) (List.replicate 16 1)
    (List.replicate 16 2) (by decide) (by decide)

/-- Claim C6: `ReedSolomon::encode` returns the payload followed by exactly
`parity_bytes` parity bytes, where parity position `i` is the XOR over all
payload bytes `b_j` of `b_j` rotated left by `(i + j) % 8` bits. -/
theorem claim_C6 (rs : ReedSolomon) (payload : List Nat) :
    (rs.encode payload).length = payload.length + rs.parity_bytes
    ∧ (rs.encode payload).take payload.length = payload
    ∧ ∀ i < rs.parity_bytes,
        (rs.encode payload).getD (payload.length + i) 0 =
          payload.enum.foldl (fun parity jb => parity ^^^ rotl8 jb.2 ((i + jb.1) % 8)) 0 := by
  refine ⟨by simp [ReedSolomon.encode], ?_, fun i hi => ?_⟩
  · unfold ReedSolomon.encode
    rw [List.take_left]
  · unfold ReedSolomon.encode
    rw [List.getD_eq_getElem?_getD,
      List.getElem?_append_right (show payload.length ≤ payload.length + i by omega)]
    have hsub : payload.length + i - payload.length = i := by omega
    rw [hsub, List.getElem?_map, List.getElem?_range hi]
    simp [rs_parity_byte]

/-- Claim C6 witness: the parity formula evaluated on the payload `[1, 2, 3]`. -/
theorem claim_C6_witness :
    ((ReedSolomon.new 16).encode [1, 2, 3]).getD (([1, 2, 3] : List Nat).length + 0) 0 =
      ([1, 2, 3] : List Nat).enum.foldl
        (fun parity jb => parity ^^^ rotl8 jb.2 ((0 + jb.1) % 8)) 0 :=
  (claim_C6 (ReedSolomon.new 16) [1, 2, 3]).2.2 0 (by decide)

/-! ## Claims about the prime walk -/

/-- Claim C9: each `next(bound)` call applies the recurrence
`state = (state * primes[index % 20] + primes[index % 20]) mod 2^64 mod bound`
and increments the index; equal seeds give identical sequences, and
`reset(seed)` restores the sequence from the start. -/
theorem claim_C9 :
    (∀ (w : PrimeWalk) (bound : Nat), w.primes = primeTable → 1 ≤ bound →
      w.next bound = some
        ((w.state * primeTable.getD (w.index % 20) 0
            + primeTable.getD (w.index % 20) 0) % 2 ^ 64 % bound,
          { primes := primeTable
            index := w.index + 1
            state := (w.state * primeTable.getD (w.index % 20) 0
              + primeTable.getD (w.index % 20) 0) % 2 ^ 64 % bound }))
    ∧ (∀ s1 s2 bound n : Nat, s1 = s2 →
        runWalk (PrimeWalk.new s1) bound n = runWalk (PrimeWalk.new s2) bound n)
    ∧ (∀ (w : PrimeWalk) (s bound n : Nat), w.primes = primeTable →
        runWalk (w.reset s) bound n = runWalk (PrimeWalk.new s) bound n) := by
  refine ⟨fun w bound hp hb => ?_, fun s1 s2 bound n h => by rw [h], fun w s bound n hp => ?_⟩
  · obtain ⟨pr, idx, st⟩ := w
    simp only at hp
    subst hp
    unfold PrimeWalk.next
    rw [if_neg (by omega)]
    rfl
  · obtain ⟨pr, idx, st⟩ := w
    simp only at hp
    subst hp
    rfl

/-- Claim C9 witness: the recurrence and the reset law evaluated concretely. -/
theorem claim_C9_witness :
    (PrimeWalk.new 12345).next 1000 = some
        ((12345 * primeTable.getD (0 % 20) 0 + primeTable.getD (0 % 20) 0) % 2 ^ 64 % 1000,
          { primes := primeTable
            index := 0 + 1
            state := (12345 * primeTable.getD (0 % 20) 0
              + primeTable.getD (0 % 20) 0) % 2 ^ 64 % 1000 })
    ∧ runWalk ((PrimeWalk.new 1).reset 12345) 1000 3 =
        runWalk (PrimeWalk.new 12345) 1000 3 :=
  ⟨claim_C9.1 (PrimeWalk.new 12345) 1000 rfl (by omega),
    claim_C9.2.2 (PrimeWalk.new 1) 12345 1000 3 rfl⟩

/-- Claim C10: for a positive bound, `next` returns an index strictly below
the bound and leaves the walk state strictly below the bound; for bound zero
the source would divide by zero, and the embedding guards it with `none`. -/
theorem claim_C10 (w : PrimeWalk) :
    (∀ bound : Nat, 1 ≤ bound →
      ∃ r w2, w.next bound = some (r, w2) ∧ r < bound ∧ w2.state < bound)
    ∧ w.next 0 = none := by
  constructor
  · intro bound hb
    unfold PrimeWalk.next
    rw [if_neg (by omega)]
    exact ⟨_, _, rfl, Nat.mod_lt _ (by omega), Nat.mod_lt _ (by omega)⟩
  · unfold PrimeWalk.next
    rw [if_pos rfl]

/-- Claim C10 witness: bound 1000 on the fresh walk gives a bounded index. -/
theorem claim_C10_witness :
    (∃ r w2, (PrimeWalk.new 12345).next 1000 = some (r, w2) ∧ r < 1000 ∧ w2.state < 1000)
    ∧ (PrimeWalk.new 12345).next 0 = none :=
  ⟨(claim_C10 (PrimeWalk.new 12345)).1 1000 (by omega), (claim_C10 (PrimeWalk.new 12345)).2⟩

end TentCodec
